import Mathlib

/-!
Verification of the phylogenetics repository's homolog-set merge engine
(`phylogenetics/dataio/homologsetio.py`), the FASTA adapter
(`phylogenetics/dataio/formats/fasta.py`) and the Entrez XML parser
(`phylogenetics/exttools/entrez.py`), as a shallow embedding in Lean 4.

Attribute bags (Python object attributes / dicts) are modelled as
association lists over `String`; Python exceptions are modelled with
`Except`, where a batch operation that mutates the homolog set in place
before raising carries the partially updated set in its error value.
-/

namespace Phylo

/-- Attribute bag of one homolog: attribute name to value, first entry wins
on lookup, `setA` overwrites in place (Python object-attribute semantics). -/
abbrev Homolog := List (String × String)

/-- The homolog set: mapping from homolog id to its attribute bag.
Models `HomologSet`, whose homologs are reachable as attributes keyed by id. -/
abbrev HomologSet := List (String × Homolog)

/-- One tuple-pair record of the sequence-data shape:
`((value0, value1, ...), sequence_string)`. -/
abbrev Record := List String × String

/-- Python exceptions raised by the embedded code. -/
inductive PyErr where
  | indexError      -- tuple index out of range
  | arityMismatch   -- "Number of attributes do not match number of tags given."
  | attributeError  -- AttributeError from getattr on a missing attribute
  | noIdTag         -- "One tag in alignment must be `id`."
  | typeError       -- getattr called with a non-string attribute name
  | nameError       -- reference to an unbound name
deriving DecidableEq

/-- Lookup in an association list (first binding wins). -/
def lookupA {α : Type} : List (String × α) → String → Option α
  | [], _ => none
  | (k', v) :: t, k => if k' = k then some v else lookupA t k

/-- Overwrite-or-append on an association list: replaces the first binding
of `k` in place, else appends a new binding at the end (Python dict /
object-attribute update). -/
def setA {α : Type} : List (String × α) → String → α → List (String × α)
  | [], k, v => [(k, v)]
  | (k', v') :: t, k, v => if k' = k then (k', v) :: t else (k', v') :: setA t k v

/-- The id keys of a homolog set, in order. -/
def keysOf (hs : HomologSet) : List String := hs.map Prod.fst

/-- The value of attribute `a` of homolog `i`, if both exist. -/
def attrOf (hs : HomologSet) (i a : String) : Option String :=
  match lookupA hs i with
  | none => none
  | some h => lookupA h a

/-- `homolog.addattr(name, value)` (from the Handler base class, modelled
from the spec: overwrite-or-insert, schema-less). -/
def addattr (h : Homolog) (k v : String) : Homolog := setA h k v

/-- Apply a list of attribute writes to a homolog, in order. -/
def applyWrites (h : Homolog) (ws : List (String × String)) : Homolog :=
  ws.foldl (fun h kv => setA h kv.1 kv.2) h

/-- The attribute writes one record performs on its target homolog:
`tags[i] := attributes[i]` in order, then `sequence := sequence`
(mirrors the loop body of `_sequence_data_to_homologset`). -/
def writesOf (tags : List String) (attributes : List String) (sequence : String) :
    List (String × String) :=
  tags.zip attributes ++ [("sequence", sequence)]

/-- `tags.index("id")`: position of the first `"id"` in the tag list. -/
def indexOfId : List String → Option Nat
  | [] => none
  | t :: rest => if t = "id" then some 0 else (indexOfId rest).map (· + 1)

/-- Body of the per-record loop of `Read._sequence_data_to_homologset`:
read the id by indexing the value tuple at the id position (IndexError if
out of range), then the arity check, then `getattr(self._HomologSet, id)`
(AttributeError if the id resolves to no homolog), then the attribute
writes and the sequence write. -/
def mergeOne (hs : HomologSet) (tags : List String) (index : Nat) (pair : Record) :
    Except PyErr HomologSet :=
  let attributes := pair.1
  let sequence := pair.2
  match attributes[index]? with
  | none => .error .indexError
  | some id =>
    if attributes.length ≠ tags.length then .error .arityMismatch
    else
      match lookupA hs id with
      | none => .error .attributeError
      | some homolog =>
        let homolog := (tags.zip attributes).foldl (fun h tv => addattr h tv.1 tv.2) homolog
        let homolog := addattr homolog "sequence" sequence
        .ok (setA hs id homolog)

/-- The record loop: on an exception the Python code has already mutated
the homolog set in place for the earlier records, so the error value
carries the partially updated set. -/
def mergeLoop (tags : List String) (index : Nat) (hs : HomologSet) :
    List Record → Except (PyErr × HomologSet) HomologSet
  | [] => .ok hs
  | p :: rest =>
    match mergeOne hs tags index p with
    | .error e => .error (e, hs)
    | .ok hs' => mergeLoop tags index hs' rest

/-- `Read._sequence_data_to_homologset`: requires an `id` tag, then runs
the record loop. -/
def sequence_data_to_homologset (hs : HomologSet) (data : List Record)
    (tags : List String) : Except (PyErr × HomologSet) HomologSet :=
  match indexOfId tags with
  | none => .error (.noIdTag, hs)
  | some index => mergeLoop tags index hs data

/-- Well-formedness of one record against a homolog set: the value tuple
matches the tag list in length and the id at the id position resolves to
an existing homolog. -/
def wfRec (hs : HomologSet) (tags : List String) (index : Nat) (p : Record) : Bool :=
  p.1.length == tags.length &&
    (match p.1[index]? with
     | some rid => (lookupA hs rid).isSome
     | none => false)

/-- Every record of the batch is well-formed against the homolog set. -/
def wfBatch (hs : HomologSet) (tags : List String) (index : Nat)
    (data : List Record) : Bool :=
  data.all (wfRec hs tags index)

/-- Last-write-wins view of a write list: the value of the last write to
key `a`, if any. -/
def lastOf : List (String × String) → String → Option String
  | [], _ => none
  | (k, v) :: t, a =>
    match lastOf t a with
    | some v' => some v'
    | none => if k = a then some v else none

/-- Last-write-wins view of a whole batch for homolog `i`, attribute `a`:
the value the batch leaves there, if the batch writes that slot at all. -/
def batchLast (tags : List String) (index : Nat) :
    List Record → String → String → Option String
  | [], _, _ => none
  | p :: rest, i, a =>
    match batchLast tags index rest i a with
    | some v => some v
    | none =>
      if p.1[index]? = some i then lastOf (writesOf tags p.1 p.2) a else none

/-! ### Association-list lemmas -/

theorem lookupA_setA_self {α : Type} (l : List (String × α)) (k : String) (v : α) :
    lookupA (setA l k v) k = some v := by
  induction l with
  | nil => simp [setA, lookupA]
  | cons p t ih =>
    obtain ⟨k', v'⟩ := p
    by_cases h : k' = k <;> simp [setA, lookupA, h, ih]

theorem lookupA_setA_ne {α : Type} (l : List (String × α)) (k k' : String) (v : α)
    (h : k' ≠ k) : lookupA (setA l k v) k' = lookupA l k' := by
  induction l with
  | nil => simp [setA, lookupA, Ne.symm h]
  | cons p t ih =>
    obtain ⟨k0, v0⟩ := p
    by_cases h0 : k0 = k
    · subst h0
      simp [setA, lookupA, Ne.symm h]
    · by_cases h1 : k0 = k'
      · subst h1
        simp [setA, lookupA, h0, h]
      · simp [setA, lookupA, h0, h1, ih]

theorem lookupA_isSome_iff_mem {α : Type} (l : List (String × α)) (k : String) :
    (lookupA l k).isSome = true ↔ k ∈ l.map Prod.fst := by
  induction l with
  | nil => simp [lookupA]
  | cons p t ih =>
    obtain ⟨k', v⟩ := p
    by_cases h : k' = k
    · subst h; simp [lookupA]
    · simp [lookupA, h, ih, Ne.symm h]

theorem keysOf_setA (hs : HomologSet) (k : String) (v : Homolog)
    (h : (lookupA hs k).isSome = true) :
    (setA hs k v).map Prod.fst = hs.map Prod.fst := by
  induction hs with
  | nil => simp [lookupA] at h
  | cons p t ih =>
    obtain ⟨k', v'⟩ := p
    by_cases h0 : k' = k
    · simp [setA, h0]
    · simp [lookupA, h0] at h
      simp [setA, h0, ih h]

theorem lookupA_isSome_congr {α : Type} (l₁ l₂ : List (String × α)) (k : String)
    (h : l₁.map Prod.fst = l₂.map Prod.fst) :
    (lookupA l₁ k).isSome = (lookupA l₂ k).isSome := by
  cases h1 : (lookupA l₁ k).isSome <;> cases h2 : (lookupA l₂ k).isSome <;> try rfl
  · exfalso
    have hm : k ∈ l₂.map Prod.fst := (lookupA_isSome_iff_mem l₂ k).mp h2
    rw [← h] at hm
    have h1' := (lookupA_isSome_iff_mem l₁ k).mpr hm
    rw [h1] at h1'
    exact absurd h1' (by simp)
  · exfalso
    have hm : k ∈ l₁.map Prod.fst := (lookupA_isSome_iff_mem l₁ k).mp h1
    rw [h] at hm
    have h2' := (lookupA_isSome_iff_mem l₂ k).mpr hm
    rw [h2] at h2'
    exact absurd h2' (by simp)

/-- Folding a write list over a homolog realizes last-write-wins lookups. -/
theorem lookupA_applyWrites (ws : List (String × String)) (h0 : Homolog) (a : String) :
    lookupA (applyWrites h0 ws) a =
      match lastOf ws a with
      | some v => some v
      | none => lookupA h0 a := by
  induction ws generalizing h0 with
  | nil => simp [applyWrites, lastOf]
  | cons kv t ih =>
    obtain ⟨k, v⟩ := kv
    show lookupA (applyWrites (setA h0 k v) t) a = _
    rw [ih]
    rcases hl : lastOf t a with _ | v'
    · by_cases hk : k = a
      · subst hk; simp [lastOf, hl, lookupA_setA_self]
      · simp [lastOf, hl, hk, lookupA_setA_ne h0 k a v (fun h => hk h.symm)]
    · simp [lastOf, hl]

/-! ### Characterization of the merge engine -/

theorem wfRec_elim (hs : HomologSet) (tags : List String) (index : Nat) (p : Record)
    (h : wfRec hs tags index p = true) :
    p.1.length = tags.length ∧
      ∃ rid hom, p.1[index]? = some rid ∧ lookupA hs rid = some hom := by
  unfold wfRec at h
  rcases hg : p.1[index]? with _ | rid
  · rw [hg] at h; simp at h
  · rw [hg] at h
    simp only [Bool.and_eq_true, beq_iff_eq] at h
    obtain ⟨h1, h2⟩ := h
    obtain ⟨hom, hh⟩ := Option.isSome_iff_exists.mp h2
    exact ⟨h1, rid, hom, rfl, hh⟩

theorem wfRec_congr (hs1 hs2 : HomologSet) (h : keysOf hs1 = keysOf hs2)
    (tags : List String) (index : Nat) (p : Record) :
    wfRec hs1 tags index p = wfRec hs2 tags index p := by
  unfold wfRec
  rcases hg : p.1[index]? with _ | rid
  · rfl
  · simp [lookupA_isSome_congr hs1 hs2 rid h]

theorem wfBatch_congr (hs1 hs2 : HomologSet) (h : keysOf hs1 = keysOf hs2)
    (tags : List String) (index : Nat) (data : List Record) :
    wfBatch hs1 tags index data = wfBatch hs2 tags index data := by
  induction data with
  | nil => rfl
  | cons p rest ih =>
    simp only [wfBatch, List.all_cons] at *
    rw [wfRec_congr hs1 hs2 h tags index p, ih]

/-- A well-formed record merges successfully, and the result is the
homolog set with the record's write list applied to its target homolog. -/
theorem mergeOne_eq (hs : HomologSet) (tags : List String) (index : Nat)
    (pair : Record) (rid : String) (hom : Homolog)
    (hlen : pair.1.length = tags.length)
    (hid : pair.1[index]? = some rid)
    (hh : lookupA hs rid = some hom) :
    mergeOne hs tags index pair =
      .ok (setA hs rid (applyWrites hom (writesOf tags pair.1 pair.2))) := by
  unfold mergeOne
  simp [hid, hlen, hh, writesOf, applyWrites, addattr, List.foldl_append]

/-- Attribute-level view of one successful merge: the target homolog's
written slots take the last written value, everything else is unchanged,
and the id keys are preserved. -/
theorem mergeOne_attr (hs : HomologSet) (tags : List String) (index : Nat)
    (pair : Record) (rid : String) (hom : Homolog)
    (hlen : pair.1.length = tags.length)
    (hid : pair.1[index]? = some rid)
    (hh : lookupA hs rid = some hom) :
    ∃ hs', mergeOne hs tags index pair = .ok hs' ∧
      keysOf hs' = keysOf hs ∧
      ∀ i a, attrOf hs' i a =
        if i = rid then
          match lastOf (writesOf tags pair.1 pair.2) a with
          | some v => some v
          | none => attrOf hs i a
        else attrOf hs i a := by
  refine ⟨setA hs rid (applyWrites hom (writesOf tags pair.1 pair.2)),
    mergeOne_eq hs tags index pair rid hom hlen hid hh, ?_, ?_⟩
  · exact keysOf_setA hs rid _ (by rw [hh]; rfl)
  · intro i a
    by_cases hi : i = rid
    · subst hi
      simp [attrOf, lookupA_setA_self, lookupA_applyWrites, hh]
    · simp only [if_neg hi, attrOf, lookupA_setA_ne hs rid i _ hi]

/-- Characterization of the whole record loop on a well-formed batch:
it succeeds, preserves the set of homolog ids, and every attribute slot
ends at the batch's last write to it (or its old value when unwritten). -/
theorem mergeLoop_char (tags : List String) (index : Nat) :
    ∀ (data : List Record) (hs : HomologSet),
      wfBatch hs tags index data = true →
      ∃ hs', mergeLoop tags index hs data = .ok hs' ∧
        keysOf hs' = keysOf hs ∧
        ∀ i a, attrOf hs' i a =
          match batchLast tags index data i a with
          | some v => some v
          | none => attrOf hs i a := by
  intro data
  induction data with
  | nil =>
    intro hs _
    exact ⟨hs, rfl, rfl, fun i a => by simp [batchLast]⟩
  | cons p rest ih =>
    intro hs hwf
    simp only [wfBatch, List.all_cons, Bool.and_eq_true] at hwf
    obtain ⟨hwfp, hwfrest⟩ := hwf
    obtain ⟨hlen, rid, hom, hid, hh⟩ := wfRec_elim hs tags index p hwfp
    obtain ⟨hs1, hm, hk1, hattr1⟩ := mergeOne_attr hs tags index p rid hom hlen hid hh
    have hwfrest1 : wfBatch hs1 tags index rest = true := by
      rw [wfBatch_congr hs1 hs hk1]; exact hwfrest
    obtain ⟨hs', hloop, hk', hattr'⟩ := ih hs1 hwfrest1
    refine ⟨hs', ?_, hk'.trans hk1, ?_⟩
    · simp only [mergeLoop, hm]
      exact hloop
    · intro i a
      rw [hattr' i a, hattr1 i a]
      rcases hbr : batchLast tags index rest i a with _ | v
      · by_cases hi : i = rid
        · subst hi
          simp [batchLast, hbr, hid]
        · have hne : ¬ (p.1[index]? = some i) := by
            rw [hid]; intro hc; exact hi (Option.some.inj hc).symm
          simp only [batchLast, hbr, if_neg hne, if_neg hi]
      · simp only [batchLast, hbr]

/-! ### `Read._sequence_metadata_to_homologset` and the CSV read path -/

/-- The attributes of a `Read` object. `__init__` assigns only
`_HomologSet`; the attribute `_Homolog` is assigned nowhere in the class,
so it is modelled as an `Option` that construction leaves at `none`. -/
structure ReadState where
  homologSetAttr : HomologSet
  homologAttr : Option Homolog

/-- `Read.__init__(HomologSet)`: binds `_HomologSet` and nothing else. -/
def mkRead (hs : HomologSet) : ReadState := ⟨hs, none⟩

/-- `Read._sequence_metadata_to_homologset`: for each metadata record the
loop body first evaluates `getattr(self._Homolog, id)`. Reading
`self._Homolog` raises `AttributeError` because that attribute is never
assigned; were it present, passing the built-in function `id` (not a
string) as the attribute name would raise `TypeError`. Either way the
body raises before any `addattr` call. -/
def sequence_metadata_to_homologset (r : ReadState) :
    List (List (String × String)) → Except (PyErr × HomologSet) HomologSet
  | [] => .ok r.homologSetAttr
  | _ :: _ =>
    match r.homologAttr with
    | none => .error (.attributeError, r.homologSetAttr)
    | some _ => .error (.typeError, r.homologSetAttr)

/-- Modelled from the spec: `csv.read` (`dataio/formats/csv.py` is not
under `src/`): the header row defines the tag names and each subsequent
row is one record, a mapping from tag to cell. -/
def csv_read (rows : List (List String)) : List (List (String × String)) :=
  match rows with
  | [] => []
  | header :: body => body.map (fun row => header.zip row)

/-- `Read.csv`: parse the CSV text, then merge the metadata records. -/
def Read_csv (r : ReadState) (rows : List (List String)) :
    Except (PyErr × HomologSet) HomologSet :=
  sequence_metadata_to_homologset r (csv_read rows)

/-! ### Claim theorems for the merge engine -/

/-- C1: merging a well-formed batch of tuple-pair records (an `id` tag,
matching arities, all ids resolving to existing homologs) is idempotent:
the second application succeeds, yields the same set of homolog ids and
the same attribute values as the first, and neither application creates
or duplicates a homolog. -/
theorem merge_batch_idempotent (hs : HomologSet) (data : List Record)
    (tags : List String) (index : Nat)
    (hidx : indexOfId tags = some index)
    (hwf : wfBatch hs tags index data = true) :
    ∃ hs₁ hs₂,
      sequence_data_to_homologset hs data tags = .ok hs₁ ∧
      sequence_data_to_homologset hs₁ data tags = .ok hs₂ ∧
      keysOf hs₁ = keysOf hs ∧
      keysOf hs₂ = keysOf hs₁ ∧
      ∀ i a, attrOf hs₂ i a = attrOf hs₁ i a := by
  obtain ⟨hs₁, h1, hk1, ha1⟩ := mergeLoop_char tags index data hs hwf
  have hwf1 : wfBatch hs₁ tags index data = true := by
    rw [wfBatch_congr hs₁ hs hk1]; exact hwf
  obtain ⟨hs₂, h2, hk2, ha2⟩ := mergeLoop_char tags index data hs₁ hwf1
  refine ⟨hs₁, hs₂, ?_, ?_, hk1, hk2, ?_⟩
  · simp only [sequence_data_to_homologset, hidx]; exact h1
  · simp only [sequence_data_to_homologset, hidx]; exact h2
  · intro i a
    rcases hb : batchLast tags index data i a with _ | v
    · rw [ha2 i a, hb]
    · rw [ha2 i a, ha1 i a, hb]

/-- C1 witness. -/
theorem merge_batch_idempotent_witness :
    ∃ hs₁ hs₂,
      sequence_data_to_homologset
        [("XX00000001", [("id", "XX00000001"), ("species", "dog"), ("sequence", "ASH")])]
        [(["XX00000001"], "ASHASH")] ["id"] = .ok hs₁ ∧
      sequence_data_to_homologset hs₁ [(["XX00000001"], "ASHASH")] ["id"] = .ok hs₂ ∧
      keysOf hs₁ =
        keysOf [("XX00000001", [("id", "XX00000001"), ("species", "dog"), ("sequence", "ASH")])] ∧
      keysOf hs₂ = keysOf hs₁ ∧
      ∀ i a, attrOf hs₂ i a = attrOf hs₁ i a :=
  merge_batch_idempotent
    [("XX00000001", [("id", "XX00000001"), ("species", "dog"), ("sequence", "ASH")])]
    [(["XX00000001"], "ASHASH")] ["id"] 0 (by decide) (by decide)

/-- C2: merging one well-formed tuple-pair record whose id resolves to an
existing homolog sets on that homolog exactly the attributes named by the
tag list (positionally, last-write-wins) plus `sequence`; every other
attribute of that homolog is unchanged, every other homolog is unchanged,
and no new homolog is created. -/
theorem merge_single_record_exact (hs : HomologSet) (tags : List String)
    (index : Nat) (pair : Record) (rid : String) (hom : Homolog)
    (hidx : indexOfId tags = some index)
    (hlen : pair.1.length = tags.length)
    (hid : pair.1[index]? = some rid)
    (hh : lookupA hs rid = some hom) :
    ∃ hs', sequence_data_to_homologset hs [pair] tags = .ok hs' ∧
      keysOf hs' = keysOf hs ∧
      (∀ i, i ≠ rid → lookupA hs' i = lookupA hs i) ∧
      ∃ hom', lookupA hs' rid = some hom' ∧
        (∀ a v, lastOf (writesOf tags pair.1 pair.2) a = some v →
          lookupA hom' a = some v) ∧
        (∀ a, lastOf (writesOf tags pair.1 pair.2) a = none →
          lookupA hom' a = lookupA hom a) := by
  refine ⟨setA hs rid (applyWrites hom (writesOf tags pair.1 pair.2)), ?_, ?_, ?_, ?_⟩
  · simp only [sequence_data_to_homologset, hidx, mergeLoop,
      mergeOne_eq hs tags index pair rid hom hlen hid hh]
  · exact keysOf_setA hs rid _ (by rw [hh]; rfl)
  · intro i hi
    exact lookupA_setA_ne hs rid i _ hi
  · refine ⟨applyWrites hom (writesOf tags pair.1 pair.2), lookupA_setA_self hs rid _, ?_, ?_⟩
    · intro a v hv
      rw [lookupA_applyWrites, hv]
    · intro a hv
      rw [lookupA_applyWrites, hv]

/-- C2 witness (the spec's concrete scenario). -/
theorem merge_single_record_exact_witness :
    ∃ hs', sequence_data_to_homologset
        [("XX00000001", [("id", "XX00000001"), ("species", "dog"), ("sequence", "ASH")])]
        [(["XX00000001"], "ASHASH")] ["id"] = .ok hs' ∧
      keysOf hs' =
        keysOf [("XX00000001", [("id", "XX00000001"), ("species", "dog"), ("sequence", "ASH")])] ∧
      (∀ i, i ≠ "XX00000001" →
        lookupA hs' i =
          lookupA [("XX00000001", [("id", "XX00000001"), ("species", "dog"), ("sequence", "ASH")])] i) ∧
      ∃ hom', lookupA hs' "XX00000001" = some hom' ∧
        (∀ a v, lastOf (writesOf ["id"] ["XX00000001"] "ASHASH") a = some v →
          lookupA hom' a = some v) ∧
        (∀ a, lastOf (writesOf ["id"] ["XX00000001"] "ASHASH") a = none →
          lookupA hom' a =
            lookupA [("id", "XX00000001"), ("species", "dog"), ("sequence", "ASH")] a) :=
  merge_single_record_exact
    [("XX00000001", [("id", "XX00000001"), ("species", "dog"), ("sequence", "ASH")])]
    ["id"] 0 (["XX00000001"], "ASHASH") "XX00000001"
    [("id", "XX00000001"), ("species", "dog"), ("sequence", "ASH")]
    (by decide) (by decide) (by decide) (by decide)

theorem indexOfId_eq_none (tags : List String) (h : "id" ∉ tags) :
    indexOfId tags = none := by
  induction tags with
  | nil => rfl
  | cons t rest ih =>
    simp only [List.mem_cons, not_or] at h
    simp [indexOfId, Ne.symm h.1, ih h.2]

/-- C3 counterexample: a record with no `id` field (tag list `["accver"]`)
is rejected outright: the call raises the missing-id-tag exception and the
collection is unchanged; no secondary-key match and no fresh-id creation
happens. -/
theorem no_id_tag_rejects_cex :
    sequence_data_to_homologset [("XX00000001", [("id", "XX00000001")])]
      [(["AAA"], "SEQ")] ["accver"] =
      .error (.noIdTag, [("XX00000001", [("id", "XX00000001")])]) := by
  rfl

/-- C3 amended: for every batch whose tag list carries no `id` field the
merge engine rejects the whole batch with the missing-id-tag exception
before processing any record; `_sequence_data_to_homologset` has no
secondary-key fallback and never allocates a fresh id. -/
theorem no_id_tag_rejects (hs : HomologSet) (data : List Record)
    (tags : List String) (h : "id" ∉ tags) :
    sequence_data_to_homologset hs data tags = .error (.noIdTag, hs) := by
  simp only [sequence_data_to_homologset, indexOfId_eq_none tags h]

/-- C3 amended witness. -/
theorem no_id_tag_rejects_witness :
    sequence_data_to_homologset [] [(["AAA"], "SEQ")] ["accver", "species"] =
      .error (.noIdTag, []) :=
  no_id_tag_rejects [] [(["AAA"], "SEQ")] ["accver", "species"] (by decide)

/-- A record whose id is readable but whose value tuple disagrees with the
tag list in length makes `mergeOne` raise the arity exception. -/
theorem mergeOne_arity (hs : HomologSet) (tags : List String) (index : Nat)
    (pair : Record) (hid : (pair.1[index]?).isSome = true)
    (hbad : pair.1.length ≠ tags.length) :
    mergeOne hs tags index pair = .error .arityMismatch := by
  obtain ⟨v, hv⟩ := Option.isSome_iff_exists.mp hid
  unfold mergeOne
  simp [hv, hbad]

theorem mergeLoop_arity_abort (tags : List String) (index : Nat) :
    ∀ (pre : List Record) (hs : HomologSet),
      wfBatch hs tags index pre = true →
      ∀ (bad : Record) (post : List Record),
        (bad.1[index]?).isSome = true → bad.1.length ≠ tags.length →
        ∃ hsPre, mergeLoop tags index hs pre = .ok hsPre ∧
          mergeLoop tags index hs (pre ++ bad :: post) =
            .error (.arityMismatch, hsPre) := by
  intro pre
  induction pre with
  | nil =>
    intro hs _ bad post hbid hbad
    refine ⟨hs, rfl, ?_⟩
    simp only [List.nil_append, mergeLoop, mergeOne_arity hs tags index bad hbid hbad]
  | cons p rest ih =>
    intro hs hwf bad post hbid hbad
    simp only [wfBatch, List.all_cons, Bool.and_eq_true] at hwf
    obtain ⟨hwfp, hwfrest⟩ := hwf
    obtain ⟨hlen, rid, hom, hid, hh⟩ := wfRec_elim hs tags index p hwfp
    obtain ⟨hs1, hm, hk1, _⟩ := mergeOne_attr hs tags index p rid hom hlen hid hh
    have hwfrest1 : wfBatch hs1 tags index rest = true := by
      rw [wfBatch_congr hs1 hs hk1]; exact hwfrest
    obtain ⟨hsPre, hpre, habort⟩ := ih hs1 hwfrest1 bad post hbid hbad
    exact ⟨hsPre, by simp only [mergeLoop, hm]; exact hpre,
      by simp only [List.cons_append, mergeLoop, hm]; exact habort⟩

/-- C4 counterexample: in the batch `r1, bad, r3` with tags
`["id","species"]`, `bad`'s value tuple has length 1, so the call raises
the arity exception after applying `r1`: `r1`'s writes remain, `bad`
contributes nothing, but `r3` is NOT processed (the exception aborts the
batch instead of continuing it). -/
theorem arity_abort_cex :
    sequence_data_to_homologset
      [("X1", [("id", "X1")]), ("X2", [("id", "X2")])]
      [((["X1", "dog"], "S1") : Record), ((["X2"], "S2") : Record),
        ((["X2", "cat"], "S3") : Record)]
      ["id", "species"] =
      .error (.arityMismatch,
        [("X1", [("id", "X1"), ("species", "dog"), ("sequence", "S1")]),
         ("X2", [("id", "X2")])]) := by
  rfl

/-- C4 amended: a record whose value tuple length disagrees with the tag
list is rejected with the arity-mismatch exception and contributes no
attribute writes, and records earlier in the batch remain applied (no
rollback); but the exception aborts the batch, so records later in the
batch are NOT processed. -/
theorem arity_abort (hs : HomologSet) (tags : List String) (index : Nat)
    (pre post : List Record) (bad : Record)
    (hidx : indexOfId tags = some index)
    (hwf : wfBatch hs tags index pre = true)
    (hbid : (bad.1[index]?).isSome = true)
    (hbad : bad.1.length ≠ tags.length) :
    ∃ hsPre, sequence_data_to_homologset hs pre tags = .ok hsPre ∧
      sequence_data_to_homologset hs (pre ++ bad :: post) tags =
        .error (.arityMismatch, hsPre) := by
  obtain ⟨hsPre, hpre, habort⟩ :=
    mergeLoop_arity_abort tags index pre hs hwf bad post hbid hbad
  exact ⟨hsPre, by simp only [sequence_data_to_homologset, hidx]; exact hpre,
    by simp only [sequence_data_to_homologset, hidx]; exact habort⟩

/-- C4 amended witness. -/
theorem arity_abort_witness :
    ∃ hsPre, sequence_data_to_homologset
        [("X1", [("id", "X1")]), ("X2", [("id", "X2")])]
        [((["X1", "dog"], "S1") : Record)] ["id", "species"] = .ok hsPre ∧
      sequence_data_to_homologset
        [("X1", [("id", "X1")]), ("X2", [("id", "X2")])]
        [((["X1", "dog"], "S1") : Record), ((["X2"], "S2") : Record),
          ((["X2", "cat"], "S3") : Record)]
        ["id", "species"] = .error (.arityMismatch, hsPre) :=
  arity_abort [("X1", [("id", "X1")]), ("X2", [("id", "X2")])] ["id", "species"] 0
    [((["X1", "dog"], "S1") : Record)] [((["X2", "cat"], "S3") : Record)]
    ((["X2"], "S2") : Record) (by decide) (by decide) (by decide) (by decide)

/-- C9: the record's id is read by indexing the value tuple before the
arity check: a value tuple no longer than the id position fails with the
IndexError, never the arity exception; and the arity exception is only
reachable for records whose value tuple extends past the id position. -/
theorem id_read_precedes_arity_check (hs : HomologSet) (tags : List String)
    (index : Nat) :
    (∀ pair : Record, pair.1.length ≤ index →
      mergeOne hs tags index pair = .error .indexError) ∧
    (∀ pair : Record, mergeOne hs tags index pair = .error .arityMismatch →
      index < pair.1.length) := by
  constructor
  · intro pair h
    have hg : pair.1[index]? = none := by
      rw [List.getElem?_eq_none_iff]; exact h
    unfold mergeOne
    simp [hg]
  · intro pair h
    by_contra hlt
    push_neg at hlt
    have hg : pair.1[index]? = none := by
      rw [List.getElem?_eq_none_iff]; exact hlt
    unfold mergeOne at h
    simp [hg] at h

/-- C9 witness: a record with tuple length 1 against id position 1 raises
the IndexError, not the arity exception, although the arity also differs. -/
theorem id_read_precedes_arity_check_witness :
    mergeOne [] ["species", "id"] 1 ((["dog"], "S") : Record) =
      .error .indexError :=
  (id_read_precedes_arity_check [] ["species", "id"] 1).1
    ((["dog"], "S") : Record) (by decide)

/-- C10: for every non-empty metadata batch,
`_sequence_metadata_to_homologset` on a freshly constructed `Read` object
raises `AttributeError` (reading the never-assigned `self._Homolog`)
before merging any record, leaving the homolog set unchanged; the CSV
read path inherits this whenever the parsed CSV is non-empty. -/
theorem metadata_read_raises (hs : HomologSet) :
    (∀ md, md ≠ [] →
      sequence_metadata_to_homologset (mkRead hs) md =
        .error (.attributeError, hs)) ∧
    (∀ rows, csv_read rows ≠ [] →
      Read_csv (mkRead hs) rows = .error (.attributeError, hs)) := by
  constructor
  · intro md hmd
    match md with
    | [] => exact absurd rfl hmd
    | _ :: _ => rfl
  · intro rows hrows
    unfold Read_csv
    match hcr : csv_read rows with
    | [] => exact absurd hcr hrows
    | _ :: _ => rfl

/-- C10 witness. -/
theorem metadata_read_raises_witness :
    sequence_metadata_to_homologset
      (mkRead [("XX00000001", [("id", "XX00000001")])])
      [[("species", "dog")]] =
      .error (.attributeError, [("XX00000001", [("id", "XX00000001")])]) :=
  (metadata_read_raises [("XX00000001", [("id", "XX00000001")])]).1
    [[("species", "dog")]] (by decide)

/-! ### The FASTA adapter (`dataio/formats/fasta.py`)

`read` matches the regular expression `>.+\n[A-Z\-\n]+` over the input with
`findall` and parses each match; `write` iterates over the unbound name
`sequences`. Strings are processed through their character lists so that
everything reduces in the kernel. -/

/-- Characters of the sequence-body character class `[A-Z\-\n]`. -/
def isSeqChar (c : Char) : Bool :=
  decide ('A' ≤ c ∧ c ≤ 'Z') || c == '-' || c == '\n'

/-- Python `str.strip` whitespace set. -/
def isPySpace (c : Char) : Bool :=
  c == ' ' || c == '\t' || c == '\n' || c == '\r' || c == '\x0b' || c == '\x0c'

/-- Python `str.strip` on a character list. -/
def pyStripL (l : List Char) : List Char :=
  ((l.dropWhile isPySpace).reverse.dropWhile isPySpace).reverse

/-- Python `str.strip`. -/
def pyStrip (s : String) : String := String.mk (pyStripL s.data)

/-- Python `str.split("|")` (keeps empty fields; `"".split("|") == [""]`). -/
def splitOnPipe : List Char → List (List Char)
  | [] => [[]]
  | c :: t =>
    let r := splitOnPipe t
    if c = '|' then [] :: r
    else
      match r with
      | [] => [[c]]
      | h :: t' => (c :: h) :: t'

/-- One attempted match of `>.+\n[A-Z\-\n]+` anchored at the start of the
input: `>`one-or-more non-newline characters, a newline, then a non-empty
greedy run of `[A-Z\-\n]`. Returns the matched text and the rest. -/
def matchAt : List Char → Option (List Char × List Char)
  | [] => none
  | c :: t =>
    if c = '>' then
      let hdr := t.takeWhile (fun x => x != '\n')
      let rest := t.dropWhile (fun x => x != '\n')
      match hdr, rest with
      | [], _ => none
      | _ :: _, [] => none
      | _ :: _, nl :: t2 =>
        let run := t2.takeWhile isSeqChar
        let rest2 := t2.dropWhile isSeqChar
        if run.isEmpty then none
        else some ('>' :: hdr ++ nl :: run, rest2)
    else none

/-- `re.findall` of the FASTA pattern: leftmost, non-overlapping; skip one
character when no match starts here. The fuel argument bounds the number
of loop steps; each step consumes at least one character, so the input
length is always enough fuel. -/
def findallFuel : Nat → List Char → List (List Char)
  | 0, _ => []
  | _ + 1, [] => []
  | fuel + 1, c :: t =>
    match matchAt (c :: t) with
    | some (m, rest) => m :: findallFuel fuel rest
    | none => findallFuel fuel t

/-- `REGEX.findall(data)`. -/
def findall (s : List Char) : List (List Char) := findallFuel s.length s

/-- The loop `for i in range(len(tags)): homolog[tags[i]] = header[i]`:
raises IndexError when the header has fewer fields than tags. -/
def fastaAssign (header : List String) :
    List String → Nat → List (String × String) →
    Except PyErr (List (String × String))
  | [], _, d => .ok d
  | t :: ts, i, d =>
    match header[i]? with
    | none => .error .indexError
    | some v => fastaAssign header ts (i + 1) (setA d t v)

/-- Parse one regex match: split off the header at the first newline,
strip and split it on `|`, strip the sequence and delete its newlines,
then build the record dict and add the `sequence` key. -/
def parseMatch (tags : List String) (m : List Char) :
    Except PyErr (List (String × String)) :=
  let hdrC := (m.drop 1).takeWhile (fun x => x != '\n')
  let seqC := ((m.drop 1).dropWhile (fun x => x != '\n')).drop 1
  let header := (splitOnPipe (pyStripL hdrC)).map String.mk
  let sequence := String.mk ((pyStripL seqC).filter (fun c => c != '\n'))
  match fastaAssign header tags 0 [] with
  | .error e => .error e
  | .ok d => .ok (setA d "sequence" sequence)

/-- Parse every match in order; an exception aborts the whole call. -/
def fastaCollect (tags : List String) :
    List (List Char) → Except PyErr (List (List (String × String)))
  | [] => .ok []
  | m :: ms =>
    match parseMatch tags m with
    | .error e => .error e
    | .ok h =>
      match fastaCollect tags ms with
      | .error e => .error e
      | .ok hs => .ok (h :: hs)

/-- `fasta.read(data, tags)`. -/
def fasta_read (data : String) (tags : List String) :
    Except PyErr (List (List (String × String))) :=
  fastaCollect tags (findall data.data)

/-- `fasta.write(metadata)`: after the list check the body runs
`for s in sequences:` where `sequences` is an unbound name, so every call
raises NameError before producing output; the loop body is unreachable. -/
def fasta_write (metadata : List Record) : Except PyErr String :=
  .error .nameError

/-! ### List helper lemmas for the FASTA proofs -/

theorem takeWhile_all {α : Type} (p : α → Bool) (l : List α)
    (h : ∀ c ∈ l, p c = true) : l.takeWhile p = l := by
  induction l with
  | nil => rfl
  | cons c t ih =>
    simp [List.takeWhile_cons, h c (List.mem_cons_self c t),
      ih (fun x hx => h x (List.mem_cons_of_mem c hx))]

theorem dropWhile_all {α : Type} (p : α → Bool) (l : List α)
    (h : ∀ c ∈ l, p c = true) : l.dropWhile p = [] := by
  induction l with
  | nil => rfl
  | cons c t ih =>
    simp [List.dropWhile_cons, h c (List.mem_cons_self c t),
      ih (fun x hx => h x (List.mem_cons_of_mem c hx))]

theorem takeWhile_append_stop {α : Type} (p : α → Bool) (l : List α) (x : α)
    (r : List α) (hl : ∀ c ∈ l, p c = true) (hx : p x = false) :
    (l ++ x :: r).takeWhile p = l := by
  induction l with
  | nil => simp [List.takeWhile_cons, hx]
  | cons c t ih =>
    simp [List.cons_append, List.takeWhile_cons, hl c (List.mem_cons_self c t),
      ih (fun y hy => hl y (List.mem_cons_of_mem c hy))]

theorem dropWhile_append_stop {α : Type} (p : α → Bool) (l : List α) (x : α)
    (r : List α) (hl : ∀ c ∈ l, p c = true) (hx : p x = false) :
    (l ++ x :: r).dropWhile p = x :: r := by
  induction l with
  | nil => simp [List.dropWhile_cons, hx]
  | cons c t ih =>
    simp [List.cons_append, List.dropWhile_cons, hl c (List.mem_cons_self c t),
      ih (fun y hy => hl y (List.mem_cons_of_mem c hy))]

theorem mem_of_mem_dropWhile {α : Type} (p : α → Bool) (l : List α) (c : α)
    (h : c ∈ l.dropWhile p) : c ∈ l := by
  induction l with
  | nil => exact absurd h (by simp)
  | cons a t ih =>
    by_cases ha : p a = true
    · simp only [List.dropWhile_cons, ha] at h
      exact List.mem_cons_of_mem a (ih h)
    · simp only [List.dropWhile_cons, Bool.not_eq_true] at ha
      simp only [List.dropWhile_cons, ha] at h
      exact h

theorem suffix_cons_elim {α : Type} {l : List α} {c : α} {t : List α}
    (h : l <:+ c :: t) : l = c :: t ∨ l <:+ t := by
  obtain ⟨pre, hpre⟩ := h
  cases pre with
  | nil => left; exact hpre
  | cons a pt =>
    right
    rw [List.cons_append] at hpre
    exact ⟨pt, (List.cons.injEq a _ c t).mp hpre |>.2⟩

theorem findallFuel_nil_input : ∀ f : Nat, findallFuel f [] = [] := by
  intro f; cases f <;> rfl

/-- When no suffix of the input starts a regex match, `findall` finds
nothing, for any amount of fuel. -/
theorem findallFuel_eq_nil (f : Nat) :
    ∀ s : List Char, (∀ l, l <:+ s → matchAt l = none) → findallFuel f s = [] := by
  induction f with
  | zero => intro s _; rfl
  | succ f ih =>
    intro s h
    match s with
    | [] => rfl
    | c :: t =>
      have hm : matchAt (c :: t) = none := h (c :: t) (List.suffix_refl _)
      simp only [findallFuel, hm]
      exact ih t (fun l hl => h l (hl.trans (List.suffix_cons c t)))

theorem matchAt_ne_gt (c : Char) (t : List Char) (h : c ≠ '>') :
    matchAt (c :: t) = none := by
  simp [matchAt, h]

/-- A match attempt at a `>` fails when the greedy sequence run after the
header's newline is empty. -/
theorem matchAt_gt_none (t : List Char) (hd : Char) (tl : List Char)
    (nl : Char) (t2 : List Char)
    (htake : t.takeWhile (fun x => x != '\n') = hd :: tl)
    (hdrop : t.dropWhile (fun x => x != '\n') = nl :: t2)
    (hrun : (t2.takeWhile isSeqChar).isEmpty = true) :
    matchAt ('>' :: t) = none := by
  simp [matchAt, htake, hdrop, hrun]

/-- A match attempt at a `>` succeeds when the header is non-empty, a
newline follows, and the greedy sequence run after it is non-empty. -/
theorem matchAt_gt_some (t : List Char) (hd : Char) (tl : List Char)
    (nl : Char) (t2 : List Char)
    (htake : t.takeWhile (fun x => x != '\n') = hd :: tl)
    (hdrop : t.dropWhile (fun x => x != '\n') = nl :: t2)
    (hrun : (t2.takeWhile isSeqChar).isEmpty = false) :
    matchAt ('>' :: t) =
      some ('>' :: ((hd :: tl) ++ nl :: t2.takeWhile isSeqChar),
        t2.dropWhile isSeqChar) := by
  simp [matchAt, htake, hdrop, hrun]

/-! ### Character-class facts -/

theorem lowercase_not_seqChar (c : Char) (h1 : 'a' ≤ c) (h2 : c ≤ 'z') :
    isSeqChar c = false := by
  simp only [isSeqChar, Bool.or_eq_false_iff, decide_eq_false_iff_not, beq_eq_false_iff_ne]
  refine ⟨⟨fun hc => ?_, ?_⟩, ?_⟩
  · exact absurd (le_trans h1 hc.2) (by decide)
  · intro hc; subst hc; exact absurd h1 (by decide)
  · intro hc; subst hc; exact absurd h1 (by decide)

theorem lowercase_ne_gt (c : Char) (h1 : 'a' ≤ c) : c ≠ '>' := by
  intro h; subst h; exact absurd h1 (by decide)

theorem seqChar_pySpace_eq_nl (c : Char) (h1 : isSeqChar c = true)
    (h2 : isPySpace c = true) : c = '\n' := by
  simp only [isPySpace, Bool.or_eq_true, beq_iff_eq] at h2
  rcases h2 with ((((hc | hc) | hc) | hc) | hc) | hc <;> subst hc <;>
    first | rfl | exact absurd h1 (by decide)

/-- Dropping a leading run of whitespace does not change the
newline-erased view of a list whose only whitespace is newlines. -/
theorem filter_dropWhile_pySpace (l : List Char)
    (h : ∀ c ∈ l, isPySpace c = true → c = '\n') :
    (l.dropWhile isPySpace).filter (fun c => c != '\n') =
      l.filter (fun c => c != '\n') := by
  induction l with
  | nil => rfl
  | cons c t ih =>
    by_cases hc : isPySpace c = true
    · have hnl : c = '\n' := h c (List.mem_cons_self c t) hc
      subst hnl
      simp [List.dropWhile_cons, hc, List.filter_cons,
        ih (fun x hx => h x (List.mem_cons_of_mem _ hx))]
    · simp only [Bool.not_eq_true] at hc
      simp [List.dropWhile_cons, hc]

/-- Python's strip-then-erase-newlines equals plain erase-newlines for a
list whose only whitespace characters are newlines. -/
theorem filter_pyStripL (l : List Char)
    (h : ∀ c ∈ l, isPySpace c = true → c = '\n') :
    (pyStripL l).filter (fun c => c != '\n') = l.filter (fun c => c != '\n') := by
  unfold pyStripL
  rw [List.filter_reverse, filter_dropWhile_pySpace _ ?hrev, List.filter_reverse,
    List.reverse_reverse, filter_dropWhile_pySpace l h]
  case hrev =>
    intro c hc hsp
    exact h c (mem_of_mem_dropWhile isPySpace l c (List.mem_reverse.mp hc)) hsp

/-- The indexed tag-assignment loop with enough header fields equals the
fold over the zipped lists. -/
theorem fastaAssign_eq_zip (header : List String) :
    ∀ (ts : List String) (i : Nat) (d : List (String × String)),
      i + ts.length ≤ header.length →
      fastaAssign header ts i d =
        .ok ((ts.zip (header.drop i)).foldl (fun d kv => setA d kv.1 kv.2) d) := by
  intro ts
  induction ts with
  | nil => intro i d _; simp [fastaAssign]
  | cons t ts ih =>
    intro i d hle
    have hi : i < header.length := by
      simp only [List.length_cons] at hle; omega
    have hidx : header[i]? = some header[i] := List.getElem?_eq_getElem hi
    have hdrop : header.drop i = header[i] :: header.drop (i + 1) :=
      List.drop_eq_getElem_cons hi
    simp only [fastaAssign, hidx, hdrop, List.zip_cons_cons, List.foldl_cons]
    exact ih (i + 1) (setA d t header[i]) (by simp only [List.length_cons] at hle; omega)

/-! ### Claim theorems for the FASTA adapter -/

/-- C5: the round-trip claim fails at the first step: `fasta.write`
iterates over the unbound name `sequences` instead of its `metadata`
parameter, so every call — here the well-formed single record
`(("XX00000001",), "ASH")` — raises NameError before producing any
output, and `read(write(records))` can never be evaluated. -/
theorem fasta_write_raises_nameError :
    fasta_write [((["XX00000001"], "ASH") : Record)] = .error .nameError := rfl

/-- C6 counterexample: the non-empty input `">XX00000001\nash"` is a
malformed FASTA block (lowercase sequence line); `read` raises nothing
and silently returns the empty record set. -/
theorem fasta_read_silent_drop_cex :
    fasta_read ">XX00000001\nash" ["id"] = .ok [] ∧
      (">XX00000001\nash" : String) ≠ "" := by
  exact ⟨rfl, by decide⟩

/-- `(String.mk l).data` is `l`. -/
theorem data_mk (l : List Char) : (String.mk l).data = l := rfl

/-- C6 amended: `read` silently drops malformed blocks: for every input
consisting of a header line (non-empty, no newline, no `>` within it)
followed by a non-empty all-lowercase sequence body — a block violating
the format grammar — `read` reports no error and returns the empty
record set. -/
theorem fasta_read_silent_drop (hdrL bodyL : List Char) (tags : List String)
    (hhdr : hdrL ≠ []) (hnl : '\n' ∉ hdrL) (hgt : '>' ∉ hdrL)
    (hbody : bodyL ≠ []) (hlc : ∀ c ∈ bodyL, 'a' ≤ c ∧ c ≤ 'z') :
    fasta_read (String.mk ('>' :: (hdrL ++ '\n' :: bodyL))) tags = .ok [] := by
  obtain ⟨a, at', rfl⟩ : ∃ a at', hdrL = a :: at' := by
    cases hdrL with
    | nil => exact absurd rfl hhdr
    | cons a at' => exact ⟨a, at', rfl⟩
  obtain ⟨b, bt, rfl⟩ : ∃ b bt, bodyL = b :: bt := by
    cases bodyL with
    | nil => exact absurd rfl hbody
    | cons b bt => exact ⟨b, bt, rfl⟩
  have hfind : findall ('>' :: ((a :: at') ++ '\n' :: (b :: bt))) = [] := by
    apply findallFuel_eq_nil
    intro l hl
    rcases suffix_cons_elim hl with hwhole | htail
    · subst hwhole
      have htake : ((a :: at') ++ '\n' :: (b :: bt)).takeWhile (fun x => x != '\n') =
          a :: at' :=
        takeWhile_append_stop _ (a :: at') '\n' (b :: bt)
          (fun c hc => by simp only [bne_iff_ne, ne_eq]; intro h; subst h; exact hnl hc)
          (by simp)
      have hdrop : ((a :: at') ++ '\n' :: (b :: bt)).dropWhile (fun x => x != '\n') =
          '\n' :: (b :: bt) :=
        dropWhile_append_stop _ (a :: at') '\n' (b :: bt)
          (fun c hc => by simp only [bne_iff_ne, ne_eq]; intro h; subst h; exact hnl hc)
          (by simp)
      have hb0 : isSeqChar b = false :=
        lowercase_not_seqChar b (hlc b (List.mem_cons_self b bt)).1
          (hlc b (List.mem_cons_self b bt)).2
      exact matchAt_gt_none _ a at' '\n' (b :: bt) htake hdrop
        (by simp [List.takeWhile_cons, hb0])
    · match l, htail with
      | [], _ => rfl
      | c :: t, htail =>
        have hc : c ∈ (a :: at') ++ '\n' :: (b :: bt) :=
          htail.subset (List.mem_cons_self c t)
        have hne : c ≠ '>' := by
          rcases List.mem_append.mp hc with hin | hin
          · intro h; subst h; exact hgt hin
          · rcases List.mem_cons.mp hin with h | h
            · subst h; decide
            · exact lowercase_ne_gt c (hlc c h).1
        exact matchAt_ne_gt c t hne
  show fastaCollect tags (findall ('>' :: ((a :: at') ++ '\n' :: (b :: bt)))) = .ok []
  rw [hfind]
  rfl

/-- C6 amended witness. -/
theorem fasta_read_silent_drop_witness :
    fasta_read (String.mk ('>' :: ("XX00000001".data ++ '\n' :: "ash".data))) ["id"] =
      .ok [] :=
  fasta_read_silent_drop "XX00000001".data "ash".data ["id"]
    (by decide) (by decide) (by decide) (by decide) (by decide)

/-- C7 counterexample: in the block `">A | B\nSEQ"` the header fields
come out as `"A "` and `" B"`: only the whole header line is stripped
before the split on `|`, and the individual fields keep their
surrounding whitespace, so the field is not equal to its trimmed form. -/
theorem fasta_fields_not_trimmed_cex :
    fasta_read ">A | B\nSEQ" ["x", "y"] =
      .ok [[("x", "A "), ("y", " B"), ("sequence", "SEQ")]] ∧
      pyStrip "A " = "A" ∧ ("A " : String) ≠ "A" := by
  refine ⟨?_, ?_, ?_⟩
  · rfl
  · rfl
  · decide

/-- What the spec asks of one well-formed FASTA block, amended only in
that the whole header line (not each field) is trimmed of surrounding
whitespace before the split: the header after `>` is split on `|`, the
fields map positionally onto the caller's tags, and `sequence` holds the
body with its newlines removed. -/
def fastaRecordSpec (tags : List String) (hdr body : String) :
    List (String × String) :=
  let fields := (splitOnPipe (pyStrip hdr).data).map String.mk
  let d := (tags.zip fields).foldl (fun d kv => setA d kv.1 kv.2) []
  setA d "sequence" (String.mk (body.data.filter (fun c => c != '\n')))

/-- C7 amended: on a single well-formed FASTA block, `read` returns
exactly one record, built by splitting the header after `>` on `|`,
mapping the fields positionally onto the caller-supplied tags and adding
the newline-erased body as `sequence`; the whole header line is trimmed
of surrounding whitespace, the individual fields are not. -/
theorem fasta_read_single_block (hdrL bodyL : List Char) (tags : List String)
    (hhdr : hdrL ≠ []) (hnl : '\n' ∉ hdrL)
    (hbody : bodyL ≠ []) (hseq : ∀ c ∈ bodyL, isSeqChar c = true)
    (htags : tags.length ≤ (splitOnPipe (pyStripL hdrL)).length) :
    fasta_read (String.mk ('>' :: (hdrL ++ '\n' :: bodyL))) tags =
      .ok [fastaRecordSpec tags (String.mk hdrL) (String.mk bodyL)] := by
  obtain ⟨a, at', rfl⟩ : ∃ a at', hdrL = a :: at' := by
    cases hdrL with
    | nil => exact absurd rfl hhdr
    | cons a at' => exact ⟨a, at', rfl⟩
  obtain ⟨b, bt, rfl⟩ : ∃ b bt, bodyL = b :: bt := by
    cases bodyL with
    | nil => exact absurd rfl hbody
    | cons b bt => exact ⟨b, bt, rfl⟩
  have htake : ((a :: at') ++ '\n' :: (b :: bt)).takeWhile (fun x => x != '\n') =
      a :: at' :=
    takeWhile_append_stop _ (a :: at') '\n' (b :: bt)
      (fun c hc => by simp only [bne_iff_ne, ne_eq]; intro h; subst h; exact hnl hc)
      (by simp)
  have hdropw : ((a :: at') ++ '\n' :: (b :: bt)).dropWhile (fun x => x != '\n') =
      '\n' :: (b :: bt) :=
    dropWhile_append_stop _ (a :: at') '\n' (b :: bt)
      (fun c hc => by simp only [bne_iff_ne, ne_eq]; intro h; subst h; exact hnl hc)
      (by simp)
  have hrun : (b :: bt).takeWhile isSeqChar = b :: bt :=
    takeWhile_all isSeqChar (b :: bt) hseq
  have hrest : (b :: bt).dropWhile isSeqChar = [] :=
    dropWhile_all isSeqChar (b :: bt) hseq
  have hmatch : matchAt ('>' :: ((a :: at') ++ '\n' :: (b :: bt))) =
      some ('>' :: ((a :: at') ++ '\n' :: (b :: bt)), []) := by
    rw [matchAt_gt_some _ a at' '\n' (b :: bt) htake hdropw (by rw [hrun]; rfl),
      hrun, hrest]
  have hfind : findall ('>' :: ((a :: at') ++ '\n' :: (b :: bt))) =
      ['>' :: ((a :: at') ++ '\n' :: (b :: bt))] := by
    show findallFuel ('>' :: ((a :: at') ++ '\n' :: (b :: bt))).length
      ('>' :: ((a :: at') ++ '\n' :: (b :: bt))) = _
    rw [List.length_cons]
    simp only [findallFuel, hmatch]
  have hparse : parseMatch tags ('>' :: ((a :: at') ++ '\n' :: (b :: bt))) =
      .ok (fastaRecordSpec tags (String.mk (a :: at')) (String.mk (b :: bt))) := by
    have hassign := fastaAssign_eq_zip ((splitOnPipe (pyStripL (a :: at'))).map String.mk)
      tags 0 [] (by simpa using htags)
    have hseqeq : (pyStripL (b :: bt)).filter (fun c => c != '\n') =
        (b :: bt).filter (fun c => c != '\n') :=
      filter_pyStripL (b :: bt) (fun c hc hsp => seqChar_pySpace_eq_nl c (hseq c hc) hsp)
    unfold parseMatch fastaRecordSpec
    simp only [List.drop_succ_cons, List.drop_zero, htake, hdropw, pyStrip, data_mk,
      hassign, hseqeq]
  show fastaCollect tags (findall ('>' :: ((a :: at') ++ '\n' :: (b :: bt)))) = _
  rw [hfind]
  simp only [fastaCollect, hparse]

/-- C7 amended witness. -/
theorem fasta_read_single_block_witness :
    fasta_read (String.mk ('>' :: ("A | B".data ++ '\n' :: "SE\nQ".data))) ["x", "y"] =
      .ok [fastaRecordSpec ["x", "y"] (String.mk "A | B".data) (String.mk "SE\nQ".data)] :=
  fasta_read_single_block "A | B".data "SE\nQ".data ["x", "y"]
    (by decide) (by decide) (by decide) (by decide) (by decide)

/-! ### The Entrez XML parser (`exttools/entrez.py`)

`parse_entrez_xml` first repairs the blob — a concatenation of XML
documents that repeat the root element — with `flatten_concatenated_XML`
(from `phylogenetics/utils.py`, which is not under `src/`), then walks
the sequence elements. The XML is modelled at tree level: a blob is a
list of documents, a document the list of sequence elements under its
root, a sequence element the list of its children. -/

/-- One child element of a sequence element: its tag and its text. -/
structure TSeqElem where
  tag : String
  text : String
deriving DecidableEq

/-- One sequence element: the list of its child elements, in order. -/
abbrev TSeq := List TSeqElem

/-- One XML document: the sequence elements under its root, in order. -/
abbrev TSeqDoc := List TSeq

/-- Python `s[n:]` character slicing on a string. -/
def strDropChars (t : String) (n : Nat) : String := String.mk (t.data.drop n)

/-- Modelled from the spec: `flatten_concatenated_XML` (defined in
`phylogenetics/utils.py`, which is not under `src/`) re-wraps a
concatenation of XML documents that repeat the root element into a
single valid document, keeping every sequence element in document
order. -/
def flatten_concatenated_XML (docs : List TSeqDoc) : TSeqDoc := docs.flatten

/-- `parse_entrez_xml`: repair the blob, then for each sequence element
build `dict([(s.tag[len("TSeq_"):], str(s.text).strip()) for s in seq])`,
in document order. -/
def parse_entrez_xml (docs : List TSeqDoc) : List (List (String × String)) :=
  (flatten_concatenated_XML docs).map
    (fun sequence =>
      sequence.foldl (fun d s => setA d (strDropChars s.tag 5) (pyStrip s.text)) [])

/-- From the spec's words: the record of one sequence element has one
entry per child, keyed by the child's tag with the known leading
`"TSeq_"` removed, valued by the child's stripped text. -/
def entrezRecordSpec (sequence : TSeq) : List (String × String) :=
  sequence.foldl
    (fun d s =>
      setA d (if s.tag.data.take 5 = "TSeq_".data then strDropChars s.tag 5 else s.tag)
        (pyStrip s.text)) []

theorem entrezRecord_fold_eq (sequence : TSeq)
    (h : ∀ s ∈ sequence, s.tag.data.take 5 = "TSeq_".data) :
    ∀ d : List (String × String),
      sequence.foldl (fun d s => setA d (strDropChars s.tag 5) (pyStrip s.text)) d =
        sequence.foldl
          (fun d s =>
            setA d
              (if s.tag.data.take 5 = "TSeq_".data then strDropChars s.tag 5 else s.tag)
              (pyStrip s.text)) d := by
  induction sequence with
  | nil => intro d; rfl
  | cons s rest ih =>
    intro d
    simp only [List.foldl_cons, h s (List.mem_cons_self s rest), if_pos]
    exact ih (fun x hx => h x (List.mem_cons_of_mem s hx)) _

/-- C8: for every concatenated Entrez XML blob whose child tags all carry
the known `"TSeq_"` name, `parse_entrez_xml` repairs the blob into one
document (joining the repeated roots) and returns exactly one mapping per
sequence element, in document order, whose keys are the child tag names
with the `"TSeq_"` name removed and whose values are the stripped child
texts. -/
theorem parse_entrez_xml_spec (docs : List TSeqDoc)
    (h : ∀ doc ∈ docs, ∀ seq ∈ doc, ∀ s ∈ seq, s.tag.data.take 5 = "TSeq_".data) :
    parse_entrez_xml docs = docs.flatten.map entrezRecordSpec ∧
      (parse_entrez_xml docs).length = (docs.map List.length).sum := by
  constructor
  · unfold parse_entrez_xml flatten_concatenated_XML entrezRecordSpec
    apply List.map_congr_left
    intro seq hseq
    obtain ⟨doc, hdoc, hmem⟩ := List.mem_flatten.mp hseq
    exact entrezRecord_fold_eq seq (fun s hs => h doc hdoc seq hmem s hs) []
  · unfold parse_entrez_xml flatten_concatenated_XML
    rw [List.length_map, List.length_flatten]

/-- A concrete two-document blob for the C8 witness. -/
def entrezBlobEx : List TSeqDoc :=
  [[[⟨"TSeq_seqtype", "protein"⟩, ⟨"TSeq_sequence", " MKV "⟩]],
   [[⟨"TSeq_accver", "AB1.1"⟩]]]

/-- C8 witness: two concatenated one-sequence documents. -/
theorem parse_entrez_xml_spec_witness :
    parse_entrez_xml entrezBlobEx = entrezBlobEx.flatten.map entrezRecordSpec ∧
      (parse_entrez_xml entrezBlobEx).length = (entrezBlobEx.map List.length).sum :=
  parse_entrez_xml_spec entrezBlobEx (by decide)
end Phylo
